import Mathlib

/-!
Verification of the p9fs session adapter (9P filesystem client for fsspec).

The definitions below are a shallow embedding of the Python sources:
  * `src/py9p/fid.py`   — the fid (handle) pool,
  * `src/p9fs/__init__.py` — the `P9FileSystem` adapter and `P9BufferedFile`.

Machine integers are modelled as `Nat` (the Python code only uses
non-negative integers in the embedded fragments); byte strings are
`List Nat`; Python exceptions are the explicit error side of `Except`.
Paths are modelled after `pathlib` normalisation as their component
lists (`List String`).

The protocol engine (`py9p.py`: `Client`, wire marshalling, constants)
ships with the repository but is outside the adapter sources; where its
behaviour matters it is either universally quantified as an oracle or
modelled from the specification, with a doc comment saying so.
-/

namespace P9fs

/-- One element of a Python `RpcError.args` tuple: either a byte string
(such as `b'file not found'`) or an integer errno. -/
inductive RpcArg where
  | bytes (s : String) : RpcArg
  | errCode (n : Nat) : RpcArg
  deriving DecidableEq, Repr

/-- Errors of the adapter, mirroring the Python exception classes:
`NoFidError` (fid.py), `P9FileNotFound` and `P9Error` (p9fs),
`py9p.RpcError` (protocol engine, carrying its `args`), a Python
`IndexError`, and an opaque exception used to quantify over
"any other error" in propagation claims. -/
inductive P9Exc where
  | noFid : P9Exc
  | fileNotFound (path : String) : P9Exc
  | p9Error (msg : String) : P9Exc
  | rpcError (args : List RpcArg) : P9Exc
  | indexError : P9Exc
  | other (tag : Nat) : P9Exc
  deriving DecidableEq, Repr

end P9fs

namespace P9fs

/-- `fid.MIN_FID`. -/
def MIN_FID : Nat := 1024

/-- `fid.MAX_FID`. -/
def MAX_FID : Nat := 65535

/-- `fid.IOUNIT`, the default transfer-unit hint (`1024 * 16`). -/
def IOUNIT : Nat := 1024 * 16

/-- `fid.Fid`: a handle value paired with its transfer unit. -/
structure Fid where
  fid : Nat
  iounit : Nat
  deriving DecidableEq, Repr

/-- `fid.FidCache`: the handle pool.  `fids` is the Python free list
(`list(range(start, limit + 1))` at construction); `acquire` pops the
head, `release` appends at the tail. -/
structure FidCache where
  start : Nat
  limit : Nat
  iounit : Nat
  fids : List Nat
  deriving DecidableEq, Repr

/-- `FidCache.__init__(start, limit)`. -/
def FidCache.init (start limit : Nat) : FidCache :=
  { start := start
    limit := limit
    iounit := IOUNIT
    fids := List.range' start (limit + 1 - start) }

/-- `FidCache.acquire`: raise `NoFidError` if the free list is empty,
else `pop(0)` and wrap in a `Fid` with the default iounit. -/
def FidCache.acquire (c : FidCache) : Except P9Exc (Fid × FidCache) :=
  match c.fids with
  | [] => .error .noFid
  | f :: rest => .ok (⟨f, c.iounit⟩, { c with fids := rest })

/-- `FidCache.release`: append the fid value to the free list. -/
def FidCache.release (c : FidCache) (f : Fid) : FidCache :=
  { c with fids := c.fids ++ [f.fid] }

/-- Pool states reachable from `FidCache.init start limit` by any
interleaving of successful `acquire`s and releases of currently
outstanding fids.  The second component tracks the outstanding
(acquired, not yet released) `Fid`s. -/
inductive ReachablePool : FidCache → List Fid → Prop where
  | init (start limit : Nat) : ReachablePool (FidCache.init start limit) []
  | acq {c : FidCache} {out : List Fid} {f : Fid} {c' : FidCache} :
      ReachablePool c out → c.acquire = .ok (f, c') →
      ReachablePool c' (f :: out)
  | rel {c : FidCache} {out : List Fid} {f : Fid} :
      ReachablePool c out → f ∈ out →
      ReachablePool (c.release f) (out.erase f)

/-- `py9p.Version`: the three protocol variants.  Modelled from the
spec (the enum lives in the protocol engine, outside the adapter
sources): one of 9P2000 (Legacy), 9P2000.u (Unix-extended),
9P2000.L (Linux). -/
inductive Version where
  | v9P2000 : Version
  | v9P2000u : Version
  | v9P2000L : Version
  deriving DecidableEq, Repr

/-- `errno.ENOENT`. -/
def ENOENT : Nat := 2

/-- `errno.EEXIST`, the create-on-existing-name engine error.
Modelled from the spec (the engine's error codes are out of scope). -/
def EEXIST : Nat := 17

/-- `errno.ENOTDIR`.  Modelled from the spec. -/
def ENOTDIR : Nat := 20

/-- `py9p.QTDIR`, the directory bit of a qid type byte.  Modelled from
the spec: the 9P qid type tag distinguishing directories. -/
def QTDIR : Nat := 0x80

/-- `py9p.DMDIR`, the directory bit of a 9P2000 stat mode.  Modelled
from the spec: directory detection for the legacy variants uses a mode
bit. -/
def DMDIR : Nat := 0x80000000

/-- Python `str.endswith('/')`, written structurally so concrete
instances compute. -/
def endsWithSlash (s : String) : Bool := s.data.getLast? == some '/'

/-- Python `'/'.join(parts)` (`String.intercalate "/"`), written
structurally so concrete instances compute. -/
def joinSlash : List String → String
  | [] => ""
  | [x] => x
  | x :: rest => x ++ "/" ++ joinSlash rest

/-- A Python path argument after `pathlib` normalisation: its component
list and whether the raw string carried a trailing separator.  Covers
the relative, `..`-free paths this adapter receives. -/
structure PyPath where
  parts : List String
  trailingSlash : Bool
  deriving DecidableEq, Repr

/-- The raw string of a `PyPath` (what the Python code calls `path`). -/
def PyPath.str (p : PyPath) : String :=
  joinSlash p.parts ++ (if p.trailingSlash then "/" else "")

/-- `str(pathlib.Path(path).parent)`: the component list without the
leaf, or `.` when there is at most one component. -/
def PyPath.parentStr (p : PyPath) : String :=
  if p.parts.length ≤ 1 then "." else joinSlash p.parts.dropLast

/-- A 9P qid; only its type byte matters to the adapter. -/
structure Qid where
  typ : Nat
  deriving DecidableEq, Repr

/-- An `Rwalk` reply: one qid per successfully resolved component. -/
structure Rwalk where
  wqid : List Qid
  deriving DecidableEq, Repr

/-- One decoded record of an `Rstat` reply (the fields the adapter
reads: mode, raw byte name, length, atime, mtime). -/
structure StatRec where
  mode : Nat
  name : List Nat
  length : Nat
  atime : Nat
  mtime : Nat
  deriving DecidableEq, Repr

/-- An `Rstat` reply: a repeated record format. -/
structure Rstat where
  stat : List StatRec
  deriving DecidableEq, Repr

/-- One record of an `Rgetattr` reply (9P2000.L). -/
structure GetattrRec where
  mode : Nat
  length : Nat
  atime : Nat
  mtime : Nat
  ctime : Nat
  deriving DecidableEq, Repr

/-- An `Rgetattr` reply: a qid plus the attribute record list the
engine decodes into `response.stat`. -/
structure Rgetattr where
  qid : Qid
  stat : List GetattrRec
  deriving DecidableEq, Repr

/-- An `Rlopen`/`Ropen` reply: the adapter only reads `iounit`. -/
structure Rfcall where
  iounit : Nat
  deriving DecidableEq, Repr

/-- The `type` field of an fsspec info record: `'directory'` or
`'file'`. -/
inductive NodeType where
  | directory : NodeType
  | file : NodeType
  deriving DecidableEq, Repr

/-- An fsspec info record as built by `_info_from_rgetattr` /
`_info_from_rstat`.  `ctime` is `none` for the stat shape (the Python
dict has no such key there). -/
structure FileInfo where
  name : String
  type : NodeType
  mode : Nat
  size : Nat
  atime : Nat
  mtime : Nat
  ctime : Option Nat
  deriving DecidableEq, Repr

/-- Pure helper functions of the protocol engine used by the
translator, universally quantified in the theorems:
`py9p.mode2stat` and the utf-8 decoding of raw stat names. -/
structure EngineFns where
  mode2stat : Nat → Nat
  decodeUtf8 : List Nat → String

/-- The protocol engine viewed from one `_info`-style query: replies
(or `RpcError`s) for the walk of given components and for the
getattr/stat of the walked-to node, plus the negotiated `msize`. -/
structure ClientOracle where
  walk : List String → Except (List RpcArg) Rwalk
  getattr : Except (List RpcArg) Rgetattr
  stat : Except (List RpcArg) Rstat
  msize : Nat

/-- `P9FileSystem._info_from_rgetattr`.  Python indexes
`response.stat[0]`, so an empty record list raises `IndexError`. -/
def infoFromRgetattr (fns : EngineFns) (path : String) (r : Rgetattr) :
    Except P9Exc FileInfo :=
  match r.stat with
  | [] => .error .indexError
  | item :: _ =>
    let nodeType := if r.qid.typ.land QTDIR ≠ 0 then NodeType.directory else NodeType.file
    let path :=
      if nodeType = NodeType.directory ∧ endsWithSlash path = false then path ++ "/" else path
    .ok { name := path
          type := nodeType
          mode := fns.mode2stat item.mode
          size := item.length
          atime := item.atime
          mtime := item.mtime
          ctime := some item.ctime }

/-- `P9FileSystem._info_from_rstat`: one info record per stat record,
paired with the caller-supplied parent path. -/
def infoFromRstat (fns : EngineFns) (parent : String) (r : Rstat) : List FileInfo :=
  r.stat.map fun item =>
    let nodeType := if item.mode.land DMDIR ≠ 0 then NodeType.directory else NodeType.file
    let name := fns.decodeUtf8 item.name
    let fullName :=
      if endsWithSlash parent then parent ++ name else parent ++ "/" ++ name
    let fullName := if nodeType = NodeType.directory then fullName ++ "/" else fullName
    { name := fullName
      type := nodeType
      mode := fns.mode2stat item.mode
      size := item.length
      atime := item.atime
      mtime := item.mtime
      ctime := none }

/-- `P9FileSystem._info` (the `with_fid`-wrapped body): walk the path
components, decide existence by comparing the wqid count with the
component count, then translate the version-appropriate metadata
reply. -/
def pyInfoRaw (fns : EngineFns) (cl : ClientOracle) (ver : Version) (p : PyPath) :
    Except P9Exc FileInfo :=
  match cl.walk p.parts with
  | .error args => .error (.rpcError args)
  | .ok resp =>
    if resp.wqid.length ≠ p.parts.length then
      .error (.fileNotFound p.str)
    else
      match ver with
      | .v9P2000L =>
        match cl.getattr with
        | .error args => .error (.rpcError args)
        | .ok r => infoFromRgetattr fns p.str r
      | _ =>
        match cl.stat with
        | .error args => .error (.rpcError args)
        | .ok r =>
          let info := infoFromRstat fns p.parentStr r
          if info.length ≠ 1 then
            .error (.p9Error ("stat returned " ++ toString info.length ++ " items instead of 1"))
          else
            match info with
            | [] => .error .indexError
            | i :: _ => .ok i

/-- The test of `P9FileSystem.info`'s except-clause:
`len(error.args) > 0 and (error.args[0] == b'file not found' or
error.args[0] == errno.ENOENT)`. -/
def rpcArgsNotFound : List RpcArg → Bool
  | [] => false
  | a :: _ => a == RpcArg.bytes "file not found" || a == RpcArg.errCode ENOENT

/-- `P9FileSystem.info`: `_info`, converting an `RpcError` whose reason
is `file not found` or `ENOENT` into `P9FileNotFound`. -/
def pyInfo (fns : EngineFns) (cl : ClientOracle) (ver : Version) (p : PyPath) :
    Except P9Exc FileInfo :=
  match pyInfoRaw fns cl ver p with
  | .error (.rpcError args) =>
    if rpcArgsNotFound args then .error (.fileNotFound p.str)
    else .error (.rpcError args)
  | r => r

/-- `P9FileSystem.exists`: `info`, converting `P9FileNotFound` to
`False`. -/
def pyExists (fns : EngineFns) (cl : ClientOracle) (ver : Version) (p : PyPath) :
    Except P9Exc Bool :=
  match pyInfo fns cl ver p with
  | .ok _ => .ok true
  | .error (.fileNotFound _) => .ok false
  | .error e => .error e

/-- `P9FileSystem.isdir`. -/
def pyIsdir (fns : EngineFns) (cl : ClientOracle) (ver : Version) (p : PyPath) :
    Except P9Exc Bool :=
  match pyInfo fns cl ver p with
  | .ok i => .ok (i.type = NodeType.directory)
  | .error (.fileNotFound _) => .ok false
  | .error e => .error e

/-- `P9FileSystem.isfile`. -/
def pyIsfile (fns : EngineFns) (cl : ClientOracle) (ver : Version) (p : PyPath) :
    Except P9Exc Bool :=
  match pyInfo fns cl ver p with
  | .ok i => .ok (i.type = NodeType.file)
  | .error (.fileNotFound _) => .ok false
  | .error e => .error e

/-- `P9FileSystem._write`: split `buf` into `ceil(size / iounit)`
slices (`buf[start : start + iounit]` for `start = i * iounit`), one
`client._write` call per slice at `offset + start`; return `size`.
The result is the issued call list (target offset, payload) and the
Python return value. -/
def pyWrite (buf : List Nat) (offset : Nat) (f : Fid) :
    List (Nat × List Nat) × Nat :=
  let size := buf.length
  ((List.range ((size + f.iounit - 1) / f.iounit)).map fun i =>
      let start := i * f.iounit
      (offset + start, (buf.drop start).take f.iounit),
   size)

/-- One `client._read` round-trip of the `_read` loop: the offset and
requested count sent, the accumulated length before the call, and the
length the server actually returned. -/
structure RCall where
  off : Nat
  accBefore : Nat
  req : Nat
  got : Nat
  deriving DecidableEq, Repr

/-- The `while True` loop of `P9FileSystem._read`, with the read
oracle `srv offset count` standing for `client._read(fid, offset,
count).data`.  Fuel-indexed (`none` on exhaustion); `readFuelSuffices`
shows `size + 1` units of fuel always suffice. -/
def readLoop (srv : Nat → Nat → List Nat) (f : Fid) (size : Nat) :
    Nat → Nat → List Nat → Option (List Nat × List RCall)
  | 0, _, _ => none
  | fuel + 1, offset, data =>
    let req := min (size - data.length) f.iounit
    let ret := srv offset req
    let data' := data ++ ret
    let call : RCall := ⟨offset, data.length, req, ret.length⟩
    if size ≤ data'.length ∨ ret.length = 0 then
      some (data', [call])
    else
      (readLoop srv f size fuel (offset + ret.length) data').map
        fun r => (r.1, call :: r.2)

/-- `P9FileSystem._read`: run the loop from an empty accumulator and
return `data[:size]`, paired with the issued call trace. -/
def pyRead (srv : Nat → Nat → List Nat) (size offset : Nat) (f : Fid) :
    Option (List Nat × List RCall) :=
  (readLoop srv f size (size + 1) offset []).map fun r => (r.1.take size, r.2)

/-- The drain loop of `P9BufferedFile._upload_chunk`: starting from the
buffer `data` (with `size = len(data)`), while `offset < size - 1`
issue `fs._write(data[offset : offset + asize], self.offset + offset)`
with `asize = min(msize, size - offset)` and advance by `asize`.
`final` is accepted and ignored, as in the source.  Fuel-indexed; the
subtraction `size - 1` is `Nat` truncated, which agrees with Python
(`0 < -1` is false, `0 - 1 < 0` likewise).  The result records the
slices handed to `fs._write` with their target offsets. -/
def uploadLoop (data : List Nat) (msize selfOffset : Nat) :
    Nat → Nat → List (Nat × List Nat)
  | 0, _ => []
  | fuel + 1, offset =>
    let size := data.length
    if offset < size - 1 then
      let asize := min msize (size - offset)
      (selfOffset + offset, (data.drop offset).take asize) ::
        uploadLoop data msize selfOffset fuel (offset + asize)
    else []

/-- `P9BufferedFile._upload_chunk`'s write calls (the buffer is drained
with fuel `len(data) + 1`, enough for any positive `msize`). -/
def uploadChunkWrites (final : Bool) (data : List Nat) (msize selfOffset : Nat) :
    List (Nat × List Nat) :=
  let _ := final
  uploadLoop data msize selfOffset (data.length + 1) 0

/-- The loop of `P9BufferedFile._fetch_range`: while `offset < end_`,
read `asize = min(msize, end_ - offset + 1)` bytes at `offset` through
`fs._read` and advance by what was returned.  The read oracle gives the
bytes `fs._read` returns for a request.  Fuel-indexed. -/
def fetchRangeLoop (rd : Nat → Nat → List Nat) (msize end_ : Nat) :
    Nat → Nat → List Nat → List Nat
  | 0, _, data => data
  | fuel + 1, offset, data =>
    if offset < end_ then
      let asize := min msize (end_ - offset + 1)
      let chunk := rd asize offset
      fetchRangeLoop rd msize end_ fuel (offset + chunk.length) (data ++ chunk)
    else data

/-- `with_fid`: acquire a temporary fid from the pool, run the wrapped
method body on its number, and return the body's outcome together with
the pool as the decorator leaves it.  (The source acquires but never
releases `tfid`; this definition mirrors that.) -/
def with_fid {α : Type} (c : FidCache) (m : Nat → Except P9Exc α) :
    Except P9Exc α × FidCache :=
  match c.acquire with
  | .error e => (.error e, c)
  | .ok (tfid, c') => (m tfid.fid, c')

/-- The engine calls `_open_fid` makes after acquiring its file fid:
walk (reply unused, never count-checked here), then `_lopen(mode)` for
9P2000.L or `_open(open2plan(mode))` otherwise, plus `msize`. -/
structure OpenOracle where
  walk : List String → Except P9Exc Rwalk
  lopen : Nat → Except P9Exc Rfcall
  plainOpen : Nat → Except P9Exc Rfcall
  open2plan : Nat → Nat
  msize : Nat

/-- The walk-then-open sequence inside `_open_fid`'s `try` block. -/
def openFidCalls (o : OpenOracle) (ver : Version) (parts : List String) (mode : Nat) :
    Except P9Exc Rfcall :=
  match o.walk parts with
  | .error e => .error e
  | .ok _ =>
    match ver with
    | .v9P2000L => o.lopen mode
    | _ => o.plainOpen (o.open2plan mode)

/-- The body of `P9FileSystem._open_fid` (inside its `with_fid`
wrapper): acquire a fid `f`, try walk + version-appropriate open; on
any exception release `f` back to the pool and re-raise unchanged; on
success set `f.iounit` from the reply's iounit, or from `msize` when
the reply says `0`. -/
def openFid (o : OpenOracle) (ver : Version) (c : FidCache)
    (parts : List String) (mode : Nat) : Except P9Exc Fid × FidCache :=
  match c.acquire with
  | .error e => (.error e, c)
  | .ok (f, c1) =>
    match openFidCalls o ver parts mode with
    | .error e => (.error e, c1.release f)
    | .ok fcall =>
      (.ok { f with iounit := if fcall.iounit = 0 then o.msize else fcall.iounit }, c1)

/-- A node kind of the model server's backing store. -/
inductive NodeKind where
  | dir : NodeKind
  | file : NodeKind
  deriving DecidableEq, Repr

/-- Modelled from the spec: the backing store of the out-of-scope 9P
server (the protocol engine `py9p.py` and the server behind it are not
part of the adapter sources).  A finite map from absolute component
lists to node kinds; the root `[]` is always a directory. -/
abbrev FsTree := List (List String × NodeKind)

/-- Kind of the node at path `p`, if any. -/
def FsTree.lookup (t : FsTree) (p : List String) : Option NodeKind :=
  if p = [] then some NodeKind.dir else (t.find? (fun e => e.1 == p)).map (·.2)

/-- Modelled from the spec: the walk primitive "may resolve fewer
components than requested without erroring" and "returns all qids up
to the last existing component in the path".  `walkFrom t cur ps`
counts how many of `ps` resolve starting below `cur`: a component
resolves when its node exists; walking continues past it only when it
is a directory. -/
def FsTree.walkFrom (t : FsTree) (cur : List String) : List String → Nat
  | [] => 0
  | x :: rest =>
    match t.lookup (cur ++ [x]) with
    | none => 0
    | some NodeKind.file => 1
    | some NodeKind.dir => 1 + t.walkFrom (cur ++ [x]) rest

/-- Modelled from the spec: the engine's getattr of an existing node —
the qid type tag carries `QTDIR` for directories; sizes and times are
immaterial to the claims and set to zero. -/
def FsTree.getattrOf (t : FsTree) (p : List String) : Except (List RpcArg) Rgetattr :=
  match t.lookup p with
  | some NodeKind.dir => .ok ⟨⟨QTDIR⟩, [⟨0, 0, 0, 0, 0⟩]⟩
  | some NodeKind.file => .ok ⟨⟨0⟩, [⟨0, 0, 0, 0, 0⟩]⟩
  | none => .error [.errCode ENOENT]

/-- Modelled from the spec: the engine's stat of an existing node —
one record whose mode carries `DMDIR` for directories. -/
def FsTree.statOf (t : FsTree) (p : List String) : Except (List RpcArg) Rstat :=
  match t.lookup p with
  | some NodeKind.dir => .ok ⟨[⟨DMDIR, [], 0, 0, 0⟩]⟩
  | some NodeKind.file => .ok ⟨[⟨0, [], 0, 0, 0⟩]⟩
  | none => .error [.errCode ENOENT]

/-- The model server packaged as the `ClientOracle` seen by one
`_info` query on path `p`. -/
def FsTree.oracle (t : FsTree) (p : List String) : ClientOracle :=
  { walk := fun ps => .ok ⟨List.replicate (t.walkFrom [] ps) ⟨0⟩⟩
    getattr := t.getattrOf p
    stat := t.statOf p
    msize := 8192 }

/-- Engine helper functions used when running against the model
server; the claims never inspect mode values or decoded names, so the
identity and the empty string are adequate instances (the main
theorems quantify over `EngineFns`). -/
def modelFns : EngineFns :=
  { mode2stat := fun m => m, decodeUtf8 := fun _ => "" }

/-- `P9FileSystem.exists` run against the model server. -/
def treeExists (t : FsTree) (parts : List String) : Except P9Exc Bool :=
  pyExists modelFns (t.oracle parts) .v9P2000L ⟨parts, false⟩

/-- `P9FileSystem.isdir` run against the model server. -/
def treeIsdir (t : FsTree) (parts : List String) : Except P9Exc Bool :=
  pyIsdir modelFns (t.oracle parts) .v9P2000L ⟨parts, false⟩

/-- `P9FileSystem.isfile` run against the model server. -/
def treeIsfile (t : FsTree) (parts : List String) : Except P9Exc Bool :=
  pyIsfile modelFns (t.oracle parts) .v9P2000L ⟨parts, false⟩

/-- `P9FileSystem.info` run against the model server. -/
def treeInfo (t : FsTree) (parts : List String) : Except P9Exc FileInfo :=
  pyInfo modelFns (t.oracle parts) .v9P2000L ⟨parts, false⟩

/-- Modelled from the spec: `Client._mkdir` — create a directory named
`name` inside the directory currently bound to the fid; the engine
errors with an exists-error when the name is already taken there
(spec §8: a second `makedirs` with `exist_ok=false` "raises
`NotADirectory`/exists-error"), and with `ENOTDIR` when the bound node
is not a directory. -/
def FsTree.mkdirAt (t : FsTree) (d : List String) (name : String) : Except P9Exc FsTree :=
  match t.lookup d with
  | some NodeKind.dir =>
    match t.lookup (d ++ [name]) with
    | some _ => .error (.rpcError [.errCode EEXIST])
    | none => .ok ((d ++ [name], NodeKind.dir) :: t)
  | _ => .error (.rpcError [.errCode ENOTDIR])

/-- `P9FileSystem._mknod` for a directory mode (as called by `_mkdir`):
walk to `parts[:-1]` (the walk reply is not count-checked, so the fid
ends at the longest existing prefix), then `client._mkdir` of
`parts[-1]` there.  `parts[-1]` of an empty tuple raises
`IndexError`. -/
def mknodDir (t : FsTree) (parts : List String) : Except P9Exc FsTree :=
  match parts.getLast? with
  | none => .error .indexError
  | some leaf =>
    let parent := parts.dropLast
    let walked := parent.take (t.walkFrom [] parent)
    t.mkdirAt walked leaf

/-- The item list `makedirs` iterates over:
`[str(parent) for parent in reversed(pathlib.Path(path).parents)
if str(parent) != '.'] + [path]`, i.e. the nonempty prefixes of the
component list in increasing length. -/
def ancestorChain (parts : List String) : List (List String) :=
  (List.range parts.length).map fun i => parts.take (i + 1)

/-- The `for item in items` loop of `P9FileSystem.makedirs`:
with `exist_ok`, skip items that exist as directories and fail on
items that exist otherwise; in every other case
`mkdir(item, create_parents=False)`, i.e. `_mknod` with a directory
mode. -/
def makedirsGo (exist_ok : Bool) : FsTree → List (List String) → Except P9Exc FsTree
  | t, [] => .ok t
  | t, item :: rest =>
    if exist_ok then
      match treeExists t item with
      | .error e => .error e
      | .ok true =>
        match treeIsdir t item with
        | .error e => .error e
        | .ok true => makedirsGo exist_ok t rest
        | .ok false =>
          .error (.p9Error (joinSlash item ++ " exists and not a directory"))
      | .ok false =>
        match mknodDir t item with
        | .error e => .error e
        | .ok t' => makedirsGo exist_ok t' rest
    else
      match mknodDir t item with
      | .error e => .error e
      | .ok t' => makedirsGo exist_ok t' rest

/-- `P9FileSystem.makedirs` against the model server. -/
def makedirs (t : FsTree) (parts : List String) (exist_ok : Bool) :
    Except P9Exc FsTree :=
  makedirsGo exist_ok t (ancestorChain parts)

/-- A sequence of `with_fid`-decorated operations run on one session's
pool (each operation's body, like `_info` or `_mknod`, works with the
temporary fid's number and does not touch the pool itself). -/
def runOps {α : Type} (ms : List (Nat → Except P9Exc α)) (c : FidCache) : FidCache :=
  ms.foldl (fun c m => (with_fid c m).2) c

/-- Every reachable pool state keeps the default transfer-unit hint of
its construction. -/
theorem ReachablePool.iounit_eq {c : FidCache} {out : List Fid}
    (h : ReachablePool c out) : c.iounit = IOUNIT := by
  induction h with
  | init start limit => rfl
  | acq h hacq ih =>
    rename_i c out f c'
    unfold FidCache.acquire at hacq
    cases hfids : c.fids with
    | nil => rw [hfids] at hacq; cases hacq
    | cons x rest =>
      rw [hfids] at hacq
      cases hacq
      exact ih
  | rel h hmem ih => exact ih

end P9fs

namespace P9fs

/-- C5: the claim as stated is false on the code.  From the freshly
constructed pool over the range 1..3, acquiring fid 1, releasing it,
and acquiring again reaches the free queue `[2, 3, 1]`, on which
`acquire` hands out fid 2 even though 1 is free and lower: the free
list is a FIFO queue (`pop(0)` / `append`), not a lowest-first set. -/
theorem C5_counterexample :
    ReachablePool { start := 1, limit := 3, iounit := IOUNIT, fids := [2, 3, 1] } [] ∧
    FidCache.acquire { start := 1, limit := 3, iounit := IOUNIT, fids := [2, 3, 1] } =
      .ok (⟨2, IOUNIT⟩, { start := 1, limit := 3, iounit := IOUNIT, fids := [3, 1] }) ∧
    1 ∈ [2, 3, 1] ∧ (1 : Nat) < 2 := by
  refine ⟨?_, rfl, by decide, by decide⟩
  have h0 : ReachablePool (FidCache.init 1 3) [] := ReachablePool.init 1 3
  have h1 : ReachablePool { start := 1, limit := 3, iounit := IOUNIT, fids := [2, 3] }
      [⟨1, IOUNIT⟩] := ReachablePool.acq h0 rfl
  have h2 := ReachablePool.rel h1 (List.mem_singleton.mpr rfl)
  simpa [FidCache.release, List.erase] using h2

/-- C5 (amended): on every reachable pool state, `acquire` fails with
`NoFidError` exactly when the free queue is empty, and otherwise
removes and returns the queue's head — the value least recently
returned to the pool (initially the lowest of the range) — paired with
the default transfer-unit hint. -/
theorem C5_acquire_fifo (c : FidCache) (out : List Fid)
    (h : ReachablePool c out) :
    (c.fids = [] → c.acquire = .error .noFid) ∧
    (∀ x rest, c.fids = x :: rest →
      c.acquire = .ok (⟨x, IOUNIT⟩, { c with fids := rest })) := by
  constructor
  · intro he
    unfold FidCache.acquire
    rw [he]
  · intro x rest hx
    unfold FidCache.acquire
    rw [hx, h.iounit_eq]

/-- Witness for `C5_acquire_fifo` at the freshly built pool over
1..3. -/
theorem C5_acquire_fifo_witness :
    ReachablePool (FidCache.init 1 3) [] ∧
    (FidCache.init 1 3).acquire =
      .ok (⟨1, IOUNIT⟩, { start := 1, limit := 3, iounit := IOUNIT, fids := [2, 3] }) := by
  refine ⟨ReachablePool.init 1 3, ?_⟩
  exact (C5_acquire_fifo _ _ (ReachablePool.init 1 3)).2 1 [2, 3] rfl

/-- C1: the code leaks one pool handle per decorated operation.  The
`with_fid` decorator acquires a temporary fid and — contrary to its own
docstring "releases it after" — never returns it to the pool, so after
a sequence of `N` operations the free count is the starting count
minus `N`, not the starting count. -/
theorem C1_with_fid_leaks {α : Type} (ms : List (Nat → Except P9Exc α))
    (c : FidCache) (h : ms.length ≤ c.fids.length) :
    (runOps ms c).fids.length = c.fids.length - ms.length := by
  induction ms generalizing c with
  | nil => simp [runOps]
  | cons m rest ih =>
    cases hfids : c.fids with
    | nil => simp [hfids] at h
    | cons x xs =>
      have hstep : (with_fid c m).2 = { c with fids := xs } := by
        unfold with_fid FidCache.acquire
        rw [hfids]
      have hlen : rest.length ≤ xs.length := by
        have := h
        rw [hfids] at this
        simpa using Nat.le_of_succ_le_succ this
      have := ih { c with fids := xs } hlen
      unfold runOps at this ⊢
      rw [List.foldl_cons, hstep, this]
      simp [hfids, Nat.succ_sub_succ]

/-- Witness for `C1_with_fid_leaks`: one `_info`-style operation on the
pool over 1..3 leaves two free fids, not three. -/
theorem C1_with_fid_leaks_witness :
    (([fun _ => Except.ok 0] : List (Nat → Except P9Exc Nat)).length ≤
      (FidCache.init 1 3).fids.length) ∧
    (runOps ([fun _ => Except.ok 0] : List (Nat → Except P9Exc Nat))
        (FidCache.init 1 3)).fids.length =
      (FidCache.init 1 3).fids.length - 1 := by
  exact ⟨by decide, C1_with_fid_leaks [fun _ => Except.ok 0] (FidCache.init 1 3) (by decide)⟩

/-- C10: inside `_open_fid`, if the walk or the version-appropriate
open call raises, the freshly acquired file fid is released back to the
pool (the pool holds the same fid values as before, as a permutation)
and the exception is re-raised unchanged; on success the returned
handle carries the reply's iounit, or the negotiated `msize` when the
reply reports iounit 0. -/
theorem C10_open_fid (o : OpenOracle) (ver : Version) (c : FidCache)
    (parts : List String) (mode : Nat) (f0 : Fid) (c1 : FidCache)
    (hacq : c.acquire = .ok (f0, c1)) :
    (∀ e, openFidCalls o ver parts mode = .error e →
      openFid o ver c parts mode = (.error e, c1.release f0) ∧
        ((c1.release f0).fids).Perm c.fids) ∧
    (∀ fcall, openFidCalls o ver parts mode = .ok fcall →
      openFid o ver c parts mode =
        (.ok ⟨f0.fid, if fcall.iounit = 0 then o.msize else fcall.iounit⟩, c1)) := by
  unfold FidCache.acquire at hacq
  cases hfids : c.fids with
  | nil => rw [hfids] at hacq; cases hacq
  | cons x xs =>
    rw [hfids] at hacq
    cases hacq
    constructor
    · intro e he
      constructor
      · unfold openFid FidCache.acquire
        rw [hfids, he]
      · simp [FidCache.release, hfids]
    · intro fcall hf
      unfold openFid FidCache.acquire
      rw [hfids, hf]

/-- The slice list `_write` iterates over buffer `l` with a chunk
size `k` (`i`-th slice `l[i*k : i*k + k]`). -/
def writeSlices (k : Nat) (l : List Nat) : List (List Nat) :=
  (List.range ((l.length + k - 1) / k)).map fun i => (l.drop (i * k)).take k

theorem writeSlices_nil (k : Nat) : writeSlices k [] = [] := by
  unfold writeSlices
  have h0 : ([] : List Nat).length + k - 1 = k - 1 := by simp
  rw [h0]
  have h : (k - 1) / k = 0 := by
    cases k with
    | zero => rfl
    | succ m => exact Nat.div_eq_of_lt (by omega)
  rw [h]
  rfl

theorem writeSlices_cons_count (k : Nat) (hk : 0 < k) (l : List Nat) (hl : l ≠ []) :
    (l.length + k - 1) / k = ((l.drop k).length + k - 1) / k + 1 := by
  have hlen : 0 < l.length := List.length_pos.mpr hl
  have h1 : l.length + k - 1 = (l.length - 1) + k := by omega
  rw [h1, Nat.add_div_right _ hk, List.length_drop]
  rcases le_or_lt l.length k with hle | hlt
  · have h2 : l.length - k = 0 := by omega
    have h3 : l.length - 1 < k := by omega
    rw [h2, Nat.div_eq_of_lt h3]
    have h4 : 0 + k - 1 = k - 1 := by omega
    rw [h4, Nat.div_eq_of_lt (show k - 1 < k by omega)]
  · have h2 : l.length - 1 = (l.length - k - 1) + k := by omega
    have h3 : l.length - k + k - 1 = (l.length - k - 1) + k := by omega
    rw [h2, h3, Nat.add_div_right _ hk]

theorem writeSlices_eq_cons (k : Nat) (hk : 0 < k) (l : List Nat) (hl : l ≠ []) :
    writeSlices k l = l.take k :: writeSlices k (l.drop k) := by
  unfold writeSlices
  rw [writeSlices_cons_count k hk l hl, List.range_succ_eq_map]
  simp only [List.map_cons, Nat.zero_mul, List.drop_zero, List.map_map]
  congr 1
  apply List.map_congr_left
  intro i _
  simp only [Function.comp_apply]
  have h1 : (i + 1) * k = k + i * k := by ring
  rw [List.drop_drop, h1]

/-- Joining the `_write` slices gives back the buffer: the slices cover
it in order, without gaps or overlap. -/
theorem writeSlices_join (k : Nat) (hk : 0 < k) (l : List Nat) :
    (writeSlices k l).flatten = l := by
  generalize hn : (l.length + k - 1) / k = n
  induction n generalizing l with
  | zero =>
    have hlen : l.length = 0 := by
      by_contra hne
      have hpos : 1 ≤ l.length := Nat.one_le_iff_ne_zero.mpr hne
      have h1 : l.length + k - 1 = (l.length - 1) + k := by omega
      rw [h1, Nat.add_div_right _ hk] at hn
      exact Nat.succ_ne_zero _ hn
    rw [List.length_eq_zero.mp hlen, writeSlices_nil]
    rfl
  | succ n ih =>
    have hl : l ≠ [] := by
      intro he
      rw [he, List.length_nil] at hn
      have h0 : 0 + k - 1 = k - 1 := by omega
      rw [h0] at hn
      have : (k - 1) / k = 0 := Nat.div_eq_of_lt (by omega)
      omega
    rw [writeSlices_eq_cons k hk l hl, List.flatten_cons]
    have hcount := writeSlices_cons_count k hk l hl
    rw [hn] at hcount
    rw [ih (l.drop k) (by omega)]
    exact List.take_append_drop k l

/-- What the C6 claim states of `_write` on `buf` at `offset` through
handle `f`: the returned count is the buffer length; the number of
issued calls is `ceil(len / iounit)`; every payload is at most
`iounit` long; the payloads concatenate back to the buffer in order;
the `i`-th call targets `offset + i * iounit`; consecutive calls
target consecutive ranges (next offset = previous offset + previous
payload length). -/
def WriteSpec (buf : List Nat) (offset : Nat) (f : Fid) : Prop :=
  (pyWrite buf offset f).2 = buf.length ∧
  (pyWrite buf offset f).1.length = (buf.length + f.iounit - 1) / f.iounit ∧
  (∀ c ∈ (pyWrite buf offset f).1, c.2.length ≤ f.iounit) ∧
  ((pyWrite buf offset f).1.map Prod.snd).flatten = buf ∧
  (∀ i a, (pyWrite buf offset f).1[i]? = some a → a.1 = offset + i * f.iounit) ∧
  (∀ i a b, (pyWrite buf offset f).1[i]? = some a →
    (pyWrite buf offset f).1[i + 1]? = some b → b.1 = a.1 + a.2.length)

/-- C6: `_write` splits the buffer into `ceil(len/iounit)` slices of at
most `iounit` bytes, one write call per slice at consecutively
increasing offsets covering the buffer in order without gaps or
overlap, and returns the buffer's length. -/
theorem C6_write_chunked (buf : List Nat) (offset : Nat) (f : Fid)
    (hk : 0 < f.iounit) : WriteSpec buf offset f := by
  have hmap : (pyWrite buf offset f).1.map Prod.snd = writeSlices f.iounit buf := by
    simp [pyWrite, writeSlices, List.map_map, Function.comp]
  have hget : ∀ i a, (pyWrite buf offset f).1[i]? = some a →
      i < (buf.length + f.iounit - 1) / f.iounit ∧
        a = (offset + i * f.iounit, (buf.drop (i * f.iounit)).take f.iounit) := by
    intro i a ha
    simp only [pyWrite] at ha
    by_cases hi : i < (buf.length + f.iounit - 1) / f.iounit
    · rw [List.getElem?_map, List.getElem?_range hi] at ha
      simp only [Option.map_some'] at ha
      injection ha with h
      exact ⟨hi, h.symm⟩
    · have hnone : ((List.range ((buf.length + f.iounit - 1) / f.iounit)).map
          (fun i => (offset + i * f.iounit, (buf.drop (i * f.iounit)).take f.iounit)))[i]? =
            none := by
        apply List.getElem?_eq_none
        simpa using Nat.le_of_not_lt hi
      rw [hnone] at ha
      cases ha
  refine ⟨rfl, by simp [pyWrite], ?_, ?_, ?_, ?_⟩
  · intro c hc
    simp only [pyWrite, List.mem_map, List.mem_range] at hc
    obtain ⟨i, -, hi⟩ := hc
    rw [← hi]
    exact List.length_take_le _ _
  · rw [hmap]
    exact writeSlices_join f.iounit hk buf
  · intro i a ha
    rw [(hget i a ha).2]
  · intro i a b ha hb
    obtain ⟨hi, hav⟩ := hget i a ha
    obtain ⟨hi1, hbv⟩ := hget (i + 1) b hb
    have hfull : ((buf.drop (i * f.iounit)).take f.iounit).length = f.iounit := by
      rw [List.length_take, List.length_drop]
      have h2 : i + 2 ≤ (buf.length + f.iounit - 1) / f.iounit := by omega
      have h3 : (i + 2) * f.iounit ≤ buf.length + f.iounit - 1 :=
        (Nat.le_div_iff_mul_le hk).mp h2
      have hexp : (i + 2) * f.iounit = i * f.iounit + 2 * f.iounit := by ring
      rw [hexp] at h3
      generalize i * f.iounit = m at h3 ⊢
      omega
    rw [hav, hbv]
    show offset + (i + 1) * f.iounit =
      offset + i * f.iounit + ((buf.drop (i * f.iounit)).take f.iounit).length
    rw [hfull]
    ring

/-- Witness for `C6_write_chunked`: a 5-byte buffer through a
2-byte-unit handle. -/
theorem C6_write_chunked_witness :
    0 < (Fid.mk 1 2).iounit ∧ WriteSpec [1, 2, 3, 4, 5] 100 (Fid.mk 1 2) :=
  ⟨by decide, C6_write_chunked [1, 2, 3, 4, 5] 100 (Fid.mk 1 2) (by decide)⟩

/-- Well-formedness of a `_read` call trace started at wire offset
`off` with `acc` bytes already accumulated: every call goes to the
offset advanced by exactly the bytes the previous calls actually
returned, records the accumulated count at its issue, and requests
exactly `min(remaining, iounit)` bytes. -/
def ReadCallsWf (iounit size : Nat) : Nat → Nat → List RCall → Prop
  | _, _, [] => True
  | off, acc, c :: rest =>
    c.off = off ∧ c.accBefore = acc ∧ c.req = min (size - acc) iounit ∧
      ReadCallsWf iounit size (off + c.got) (acc + c.got) rest

theorem readLoop_isSome (srv : Nat → Nat → List Nat) (f : Fid) (size : Nat) :
    ∀ fuel offset data, size - data.length < fuel →
      ∃ r, readLoop srv f size fuel offset data = some r := by
  intro fuel
  induction fuel with
  | zero => intro offset data h; omega
  | succ fuel ih =>
    intro offset data h
    simp only [readLoop]
    split
    · exact ⟨_, rfl⟩
    · next hbrk =>
      push_neg at hbrk
      obtain ⟨h1, h2⟩ := hbrk
      have hret : 0 < (srv offset (min (size - data.length) f.iounit)).length :=
        Nat.pos_of_ne_zero h2
      have hlt : size - (data ++ srv offset (min (size - data.length) f.iounit)).length <
          fuel := by
        rw [List.length_append]
        rw [List.length_append] at h1
        omega
      obtain ⟨r, hr⟩ := ih (offset + (srv offset (min (size - data.length) f.iounit)).length)
        (data ++ srv offset (min (size - data.length) f.iounit)) hlt
      rw [hr]
      exact ⟨_, rfl⟩

theorem readLoop_spec (srv : Nat → Nat → List Nat) (f : Fid) (size : Nat) :
    ∀ fuel offset data out trace,
      readLoop srv f size fuel offset data = some (out, trace) →
      trace ≠ [] ∧
      ReadCallsWf f.iounit size offset data.length trace ∧
      (∀ c ∈ trace.dropLast, c.accBefore + c.got < size ∧ c.got ≠ 0) ∧
      (∀ c, trace.getLast? = some c →
        (size ≤ c.accBefore + c.got ∨ c.got = 0) ∧ out.length = c.accBefore + c.got) := by
  intro fuel
  induction fuel with
  | zero => intro offset data out trace h; simp [readLoop] at h
  | succ fuel ih =>
    intro offset data out trace h
    simp only [readLoop] at h
    split at h
    · next hbrk =>
      injection h with h
      injection h with hout htrace
      subst hout
      subst htrace
      refine ⟨by simp, by simp [ReadCallsWf], by simp, ?_⟩
      intro c hc
      simp only [List.getLast?_singleton, Option.some.injEq] at hc
      subst hc
      simp only [List.length_append]
      constructor
      · rcases hbrk with hb | hb
        · left
          rw [List.length_append] at hb
          exact hb
        · right
          exact hb
      · trivial
    · next hbrk =>
      cases hrec : readLoop srv f size fuel
          (offset + (srv offset (min (size - data.length) f.iounit)).length)
          (data ++ srv offset (min (size - data.length) f.iounit)) with
      | none => rw [hrec] at h; cases h
      | some r =>
        rw [hrec] at h
        simp only [Option.map_some'] at h
        injection h with h
        injection h with hout htrace
        subst hout
        obtain ⟨hne, hwf, hmid, hlast⟩ := ih _ _ _ _ hrec
        push_neg at hbrk
        obtain ⟨h1, h2⟩ := hbrk
        rw [List.length_append] at h1
        subst htrace
        refine ⟨by simp, ?_, ?_, ?_⟩
        · simp only [ReadCallsWf]
          refine ⟨by simp, by simp, by simp, ?_⟩
          simpa [List.length_append] using hwf
        · intro c hc
          cases hr2 : r.2 with
          | nil => exact absurd hr2 hne
          | cons t0 ts =>
            rw [hr2] at hc
            rw [List.dropLast_cons_of_ne_nil (by simp)] at hc
            rcases List.mem_cons.mp hc with hc | hc
            · subst hc
              exact ⟨h1, h2⟩
            · apply hmid
              rw [hr2]
              exact hc
        · intro c hc
          cases hr2 : r.2 with
          | nil => exact absurd hr2 hne
          | cons t0 ts =>
            rw [hr2, List.getLast?_cons_cons] at hc
            have := hlast c (by rw [hr2]; exact hc)
            simpa [List.length_append] using this

/-- What the C3 claim states of `_read(size, offset, f)`: the loop
terminates with a nonempty, well-chained call trace (each call
requests exactly `min(remaining, iounit)` and the offset advances only
by what the server returned), every non-final call ended with the goal
unreached on a nonempty reply, the final call either completed the
goal or returned nothing, and the returned data is exactly `size`
bytes, or fewer only when the final reply was empty. -/
def ReadSpec (srv : Nat → Nat → List Nat) (size offset : Nat) (f : Fid) : Prop :=
  ∃ data trace, pyRead srv size offset f = some (data, trace) ∧
    trace ≠ [] ∧
    ReadCallsWf f.iounit size offset 0 trace ∧
    (∀ c ∈ trace.dropLast, c.accBefore + c.got < size ∧ c.got ≠ 0) ∧
    (∀ c, trace.getLast? = some c → size ≤ c.accBefore + c.got ∨ c.got = 0) ∧
    data.length ≤ size ∧
    (data.length = size ∨
      (data.length < size ∧ ∀ c, trace.getLast? = some c → c.got = 0))

/-- C3: the chunked read issues calls of at most
`min(remaining, iounit)`, advances the offset only by what the server
actually returned, stops once `size` bytes are collected or a
zero-length reply arrives, and returns exactly `size` bytes, or fewer
only at end of file. -/
theorem C3_read_chunked (srv : Nat → Nat → List Nat) (size offset : Nat) (f : Fid) :
    ReadSpec srv size offset f := by
  obtain ⟨r, hr⟩ := readLoop_isSome srv f size (size + 1) offset [] (by simp)
  obtain ⟨out, trace⟩ := r
  obtain ⟨hne, hwf, hmid, hlast⟩ := readLoop_spec srv f size (size + 1) offset [] out trace hr
  refine ⟨out.take size, trace, ?_, hne, by simpa using hwf, hmid,
    fun c hc => (hlast c hc).1, by simp, ?_⟩
  · unfold pyRead
    rw [hr]
    rfl
  · obtain ⟨c, hc⟩ := Option.isSome_iff_exists.mp (List.getLast?_isSome.mpr hne)
    obtain ⟨hstop, hlen⟩ := hlast c hc
    rcases hstop with hs | hs
    · left
      rw [List.length_take, hlen]
      omega
    · rcases le_or_lt size out.length with ho | ho
      · left
        rw [List.length_take]
        omega
      · right
        refine ⟨by rw [List.length_take]; omega, ?_⟩
        intro c' hc'
        rw [hc] at hc'
        injection hc' with hc'
        rw [← hc']
        exact hs

/-- With walk counts equal, `_info` never raises `P9FileNotFound`:
whatever the metadata calls do, the resulting error (if any) is an
`RpcError`, the record-count `P9Error`, or an `IndexError`. -/
theorem pyInfoRaw_count_eq_not_fnf (fns : EngineFns) (cl : ClientOracle)
    (ver : Version) (p : PyPath) (resp : Rwalk)
    (hw : cl.walk p.parts = .ok resp)
    (hc : resp.wqid.length = p.parts.length) (s : String) :
    pyInfoRaw fns cl ver p ≠ .error (.fileNotFound s) := by
  unfold pyInfoRaw
  simp only [hw]
  rw [if_neg (fun h => h hc)]
  cases ver with
  | v9P2000L =>
    cases hg : cl.getattr with
    | error a => simp
    | ok g =>
      unfold infoFromRgetattr
      cases hstat : g.stat with
      | nil => simp [hstat]
      | cons item rest => simp [hstat]
  | v9P2000 =>
    cases hs : cl.stat with
    | error a => simp
    | ok r =>
      by_cases hlen : (infoFromRstat fns p.parentStr r).length ≠ 1
      · simp only [if_pos hlen]
        simp
      · simp only [if_neg hlen]
        cases hinfo : infoFromRstat fns p.parentStr r with
        | nil => simp
        | cons i is => simp
  | v9P2000u =>
    cases hs : cl.stat with
    | error a => simp
    | ok r =>
      by_cases hlen : (infoFromRstat fns p.parentStr r).length ≠ 1
      · simp only [if_pos hlen]
        simp
      · simp only [if_neg hlen]
        cases hinfo : infoFromRstat fns p.parentStr r with
        | nil => simp
        | cons i is => simp

/-- C2: the metadata query decides existence purely by count — it
fails with `P9FileNotFound` if and only if the walk returned fewer
qids than the number of requested components; with equal counts the
path is treated as existing and (when the follow-up metadata reply is
well-formed) its info record is returned. -/
theorem C2_info_decided_by_walk_count (fns : EngineFns) (cl : ClientOracle)
    (ver : Version) (p : PyPath) (resp : Rwalk)
    (hw : cl.walk p.parts = .ok resp)
    (hle : resp.wqid.length ≤ p.parts.length) :
    (pyInfoRaw fns cl ver p = .error (.fileNotFound p.str) ↔
      resp.wqid.length < p.parts.length) ∧
    (resp.wqid.length = p.parts.length →
      (∀ g rec rest, ver = .v9P2000L → cl.getattr = .ok g → g.stat = rec :: rest →
        ∃ i, pyInfoRaw fns cl ver p = .ok i) ∧
      (∀ r, ver ≠ .v9P2000L → cl.stat = .ok r → r.stat.length = 1 →
        ∃ i, pyInfoRaw fns cl ver p = .ok i)) := by
  constructor
  · constructor
    · intro heq
      rcases Nat.lt_or_ge resp.wqid.length p.parts.length with hlt | hge
      · exact hlt
      · have hc : resp.wqid.length = p.parts.length := Nat.le_antisymm hle hge
        exact absurd heq (pyInfoRaw_count_eq_not_fnf fns cl ver p resp hw hc p.str)
    · intro hlt
      unfold pyInfoRaw
      simp only [hw]
      rw [if_pos (show resp.wqid.length ≠ p.parts.length by omega)]
  · intro hc
    constructor
    · intro g rec rest hver hg hstat
      subst hver
      unfold pyInfoRaw
      simp only [hw]
      rw [if_neg (fun h => h hc)]
      simp only [hg]
      unfold infoFromRgetattr
      simp only [hstat]
      exact ⟨_, rfl⟩
    · intro r hver hs hlen
      have hilen : (infoFromRstat fns p.parentStr r).length = 1 := by
        unfold infoFromRstat
        rw [List.length_map]
        exact hlen
      rcases hinfo : infoFromRstat fns p.parentStr r with _ | ⟨i, is⟩
      · rw [hinfo] at hilen
        cases hilen
      · have his : is = [] := by
          rw [hinfo] at hilen
          simpa using hilen
        subst his
        cases ver with
        | v9P2000L => exact absurd rfl hver
        | v9P2000 =>
          refine ⟨i, ?_⟩
          unfold pyInfoRaw
          simp only [hw]
          rw [if_neg (fun h => h hc)]
          simp only [hs]
          rw [hinfo]
          simp
        | v9P2000u =>
          refine ⟨i, ?_⟩
          unfold pyInfoRaw
          simp only [hw]
          rw [if_neg (fun h => h hc)]
          simp only [hs]
          rw [hinfo]
          simp

/-- Witness for `C2_info_decided_by_walk_count`: a walk of `["x"]`
that resolves no component makes `_info` fail with
`P9FileNotFound`. -/
theorem C2_info_decided_by_walk_count_witness :
    ({ walk := fun _ => .ok ⟨[]⟩, getattr := .error [], stat := .error [],
       msize := 8192 } : ClientOracle).walk ["x"] = .ok ⟨[]⟩ ∧
    pyInfoRaw modelFns
      { walk := fun _ => .ok ⟨[]⟩, getattr := .error [], stat := .error [],
        msize := 8192 } .v9P2000L ⟨["x"], false⟩ =
      .error (.fileNotFound (PyPath.str ⟨["x"], false⟩)) := by
  refine ⟨rfl, ?_⟩
  exact (C2_info_decided_by_walk_count modelFns
    { walk := fun _ => .ok ⟨[]⟩, getattr := .error [], stat := .error [],
      msize := 8192 } .v9P2000L ⟨["x"], false⟩ ⟨[]⟩ rfl (by simp)).1.mpr (by simp)

/-- A path that does not resolve in full cannot be walked in full: if
the node at `cur ++ ps` is absent, the walk below `cur` resolves
strictly fewer than `ps.length` components. -/
theorem walkFrom_lt_of_lookup_none (t : FsTree) :
    ∀ (ps cur : List String), ps ≠ [] →
      t.lookup (cur ++ ps) = none → t.walkFrom cur ps < ps.length := by
  intro ps
  induction ps with
  | nil => intro cur h _; exact absurd rfl h
  | cons x rest ih =>
    intro cur _ hnone
    unfold FsTree.walkFrom
    cases hx : t.lookup (cur ++ [x]) with
    | none => simp
    | some k =>
      cases k with
      | file =>
        cases hrest : rest with
        | nil =>
          subst hrest
          rw [show cur ++ [x] = cur ++ x :: [] from rfl, hnone] at hx
          cases hx
        | cons a b => simp
      | dir =>
        cases hrest : rest with
        | nil =>
          subst hrest
          rw [show cur ++ [x] = cur ++ x :: [] from rfl, hnone] at hx
          cases hx
        | cons a b =>
          subst hrest
          have hr := ih (cur ++ [x]) (by simp)
            (by rw [← List.append_cons]; exact hnone)
          simp only [List.length_cons] at hr ⊢
          omega

/-- C8: `NotFound` handling.  (1) A `P9FileNotFound` from `_info`
passes through `info` and turns `exists`/`isdir`/`isfile` into `False`;
(2) an `RpcError` whose first argument is `b'file not found'` or
`ENOENT` is converted by `info` into `P9FileNotFound` and likewise
yields `False`; (3) every other error propagates through all four
entry points unchanged; (4) against the model server, a path with no
node is reported as `P9FileNotFound` by `info` and as `False` by the
three predicates. -/
theorem C8_notfound_conversion (fns : EngineFns) (cl : ClientOracle)
    (ver : Version) (p : PyPath) (t : FsTree) (parts : List String) :
    (∀ s, pyInfoRaw fns cl ver p = .error (.fileNotFound s) →
      pyInfo fns cl ver p = .error (.fileNotFound s) ∧
      pyExists fns cl ver p = .ok false ∧
      pyIsdir fns cl ver p = .ok false ∧
      pyIsfile fns cl ver p = .ok false) ∧
    (∀ args, pyInfoRaw fns cl ver p = .error (.rpcError args) →
      rpcArgsNotFound args = true →
      pyInfo fns cl ver p = .error (.fileNotFound p.str) ∧
      pyExists fns cl ver p = .ok false ∧
      pyIsdir fns cl ver p = .ok false ∧
      pyIsfile fns cl ver p = .ok false) ∧
    (∀ e, pyInfoRaw fns cl ver p = .error e →
      (∀ s, e ≠ .fileNotFound s) →
      (∀ args, e = .rpcError args → rpcArgsNotFound args = false) →
      pyInfo fns cl ver p = .error e ∧
      pyExists fns cl ver p = .error e ∧
      pyIsdir fns cl ver p = .error e ∧
      pyIsfile fns cl ver p = .error e) ∧
    (t.lookup parts = none →
      treeInfo t parts = .error (.fileNotFound (PyPath.str ⟨parts, false⟩)) ∧
      treeExists t parts = .ok false ∧
      treeIsdir t parts = .ok false ∧
      treeIsfile t parts = .ok false) := by
  refine ⟨?_, ?_, ?_, ?_⟩
  · intro s h
    have hinfo : pyInfo fns cl ver p = .error (.fileNotFound s) := by
      unfold pyInfo
      simp only [h]
    refine ⟨hinfo, ?_, ?_, ?_⟩
    · unfold pyExists
      simp only [hinfo]
    · unfold pyIsdir
      simp only [hinfo]
    · unfold pyIsfile
      simp only [hinfo]
  · intro args h hargs
    have hinfo : pyInfo fns cl ver p = .error (.fileNotFound p.str) := by
      unfold pyInfo
      simp only [h, hargs, if_true]
    refine ⟨hinfo, ?_, ?_, ?_⟩
    · unfold pyExists
      simp only [hinfo]
    · unfold pyIsdir
      simp only [hinfo]
    · unfold pyIsfile
      simp only [hinfo]
  · intro e h hne hargs
    have hinfo : pyInfo fns cl ver p = .error e := by
      unfold pyInfo
      cases e with
      | fileNotFound s => exact absurd rfl (hne s)
      | rpcError args => simp [h, hargs args rfl]
      | noFid => simp only [h]
      | p9Error m => simp only [h]
      | indexError => simp only [h]
      | other n => simp only [h]
    refine ⟨hinfo, ?_, ?_, ?_⟩
    · unfold pyExists
      simp only [hinfo]
    · unfold pyIsdir
      simp only [hinfo]
    · unfold pyIsfile
      simp only [hinfo]
  · intro hn
    have hne : parts ≠ [] := by
      intro he
      subst he
      rw [show FsTree.lookup t [] = some NodeKind.dir from rfl] at hn
      cases hn
    have hlt : t.walkFrom [] parts < parts.length := by
      have := walkFrom_lt_of_lookup_none t parts [] hne (by simpa using hn)
      exact this
    have hraw : pyInfoRaw modelFns (t.oracle parts) .v9P2000L ⟨parts, false⟩ =
        .error (.fileNotFound (PyPath.str ⟨parts, false⟩)) := by
      unfold pyInfoRaw FsTree.oracle
      simp only [List.length_replicate]
      rw [if_pos (by omega)]
    have hinfo : treeInfo t parts =
        .error (.fileNotFound (PyPath.str ⟨parts, false⟩)) := by
      unfold treeInfo pyInfo
      simp only [hraw]
    refine ⟨hinfo, ?_, ?_, ?_⟩
    · unfold treeExists pyExists
      unfold treeInfo at hinfo
      simp only [hinfo]
    · unfold treeIsdir pyIsdir
      unfold treeInfo at hinfo
      simp only [hinfo]
    · unfold treeIsfile pyIsfile
      unfold treeInfo at hinfo
      simp only [hinfo]

/-- Witness for `C8_notfound_conversion`: on the empty model tree,
`exists "x"` is `False` and `info "x"` fails with `P9FileNotFound`. -/
theorem C8_notfound_conversion_witness :
    FsTree.lookup [] ["x"] = none ∧
    treeInfo [] ["x"] = .error (.fileNotFound (PyPath.str ⟨["x"], false⟩)) ∧
    treeExists [] ["x"] = .ok false := by
  refine ⟨rfl, ?_, ?_⟩
  · exact ((C8_notfound_conversion modelFns (FsTree.oracle [] ["x"]) .v9P2000L
      ⟨["x"], false⟩ [] ["x"]).2.2.2 rfl).1
  · exact ((C8_notfound_conversion modelFns (FsTree.oracle [] ["x"]) .v9P2000L
      ⟨["x"], false⟩ [] ["x"]).2.2.2 rfl).2.1

/-- Every nonempty prefix of `q` (including `q` itself) is a directory
of `t`. -/
def DirChain (t : FsTree) (q : List String) : Prop :=
  ∀ j, j < q.length → t.lookup (q.take (j + 1)) = some NodeKind.dir

/-- The ancestor chain of `ps` laid out below a fixed prefix `pre`,
item by item. -/
def chainFrom (pre : List String) : List String → List (List String)
  | [] => []
  | x :: rest => (pre ++ [x]) :: chainFrom (pre ++ [x]) rest

theorem chainFrom_eq : ∀ (ps pre : List String),
    chainFrom pre ps = (List.range ps.length).map (fun i => pre ++ ps.take (i + 1)) := by
  intro ps
  induction ps with
  | nil => intro pre; rfl
  | cons x r ih =>
    intro pre
    unfold chainFrom
    rw [ih (pre ++ [x]), List.length_cons, List.range_succ_eq_map, List.map_cons,
      List.map_map]
    congr 1
    · simp

/-- The `makedirs` item list is the chain from the empty prefix. -/
theorem ancestorChain_eq (parts : List String) :
    ancestorChain parts = chainFrom [] parts := by
  rw [chainFrom_eq]
  unfold ancestorChain
  apply List.map_congr_left
  intro i _
  simp

theorem FsTree.lookup_nil (t : FsTree) : t.lookup [] = some NodeKind.dir := rfl

theorem FsTree.lookup_cons (t : FsTree) (q : List String) (k : NodeKind)
    (p : List String) :
    FsTree.lookup ((q, k) :: t) p =
      if p = [] then some NodeKind.dir else if p = q then some k else t.lookup p := by
  by_cases hp : p = []
  · subst hp
    rw [if_pos rfl]
    rfl
  · rw [if_neg hp]
    unfold FsTree.lookup
    rw [if_neg hp, if_neg hp]
    by_cases hq : p = q
    · rw [if_pos hq, List.find?_cons_of_pos]
      · rfl
      · simp [hq]
    · rw [if_neg hq, List.find?_cons_of_neg]
      intro h
      exact hq (eq_of_beq h).symm

/-- Inserting a fresh path does not change other lookups. -/
theorem FsTree.lookup_insert_ne (t : FsTree) (q : List String) (k : NodeKind)
    (p : List String) (hne : p ≠ q) :
    FsTree.lookup ((q, k) :: t) p = t.lookup p := by
  rw [FsTree.lookup_cons]
  by_cases hp : p = []
  · rw [if_pos hp, hp, FsTree.lookup_nil]
  · rw [if_neg hp, if_neg hne]

/-- Sufficient condition for a full walk: every proper prefix is a
directory and the full path resolves to something. -/
theorem walkFrom_eq_length (t : FsTree) :
    ∀ (ps cur : List String),
      (∀ k, k + 1 < ps.length → t.lookup (cur ++ ps.take (k + 1)) = some NodeKind.dir) →
      (ps ≠ [] → t.lookup (cur ++ ps) ≠ none) →
      t.walkFrom cur ps = ps.length := by
  intro ps
  induction ps with
  | nil => intro cur _ _; rfl
  | cons x rest ih =>
    intro cur hdirs hlast
    unfold FsTree.walkFrom
    cases hrest : rest with
    | nil =>
      subst hrest
      have h1 : t.lookup (cur ++ [x]) ≠ none := hlast (by simp)
      cases hx : t.lookup (cur ++ [x]) with
      | none => exact absurd hx h1
      | some k => cases k <;> rfl
    | cons a b =>
      subst hrest
      have h1 : t.lookup (cur ++ [x]) = some NodeKind.dir := by
        have := hdirs 0 (by simp)
        simpa using this
      rw [h1]
      have h2 := ih (cur ++ [x])
        (fun k hk => by
          have h3 := hdirs (k + 1) (by simp only [List.length_cons] at hk ⊢; omega)
          rw [List.take_succ_cons] at h3
          rw [← List.append_cons]
          exact h3)
        (fun _ => by
          rw [← List.append_cons]
          exact hlast (List.cons_ne_nil _ _))
      rw [h2]
      simp only [List.length_cons]
      omega

/-- A full walk of a nonempty path implies the path resolves. -/
theorem lookup_some_of_walk_full (t : FsTree) :
    ∀ (ps cur : List String), ps ≠ [] →
      t.walkFrom cur ps = ps.length → t.lookup (cur ++ ps) ≠ none := by
  intro ps
  induction ps with
  | nil => intro cur h _; exact absurd rfl h
  | cons x rest ih =>
    intro cur _ hfull
    unfold FsTree.walkFrom at hfull
    cases hx : t.lookup (cur ++ [x]) with
    | none => rw [hx] at hfull; simp at hfull
    | some k =>
      rw [hx] at hfull
      cases k with
      | file =>
        cases hrest : rest with
        | nil =>
          subst hrest
          simp [hx]
        | cons a b =>
          subst hrest
          simp at hfull
      | dir =>
        cases hrest : rest with
        | nil =>
          subst hrest
          simp [hx]
        | cons a b =>
          subst hrest
          rw [List.append_cons]
          apply ih (cur ++ [x]) (List.cons_ne_nil _ _)
          simp only [List.length_cons] at hfull ⊢
          omega

/-- A directory chain walks in full. -/
theorem walkFrom_of_dirChain (t : FsTree) (q : List String) (h : DirChain t q) :
    t.walkFrom [] q = q.length := by
  apply walkFrom_eq_length
  · intro k hk
    have := h k (by omega)
    simpa using this
  · intro hq
    cases hql : q.length with
    | zero => exact absurd (List.length_eq_zero.mp hql) hq
    | succ n =>
      have := h n (by omega)
      have htake : q.take (n + 1) = q := by
        apply List.take_of_length_le
        omega
      rw [htake] at this
      simp [this]

/-- Extending a directory chain by one directory entry. -/
theorem dirChain_concat (t : FsTree) (pre : List String) (x : String)
    (h : DirChain t pre) (hx : t.lookup (pre ++ [x]) = some NodeKind.dir) :
    DirChain t (pre ++ [x]) := by
  intro j hj
  rw [List.length_append, List.length_singleton] at hj
  rcases Nat.lt_or_ge j pre.length with hlt | hge
  · rw [List.take_append_of_le_length (by omega)]
    exact h j hlt
  · have hj' : j = pre.length := by omega
    subst hj'
    rw [List.take_of_length_le (by simp)]
    exact hx

/-- Walking a directory chain extended by one more component: the walk
covers the chain and resolves the final component exactly when it
exists. -/
theorem walkFrom_concat_of_dirChain (t : FsTree) :
    ∀ (pre cur : List String) (x : String),
      (∀ j, j < pre.length → t.lookup (cur ++ pre.take (j + 1)) = some NodeKind.dir) →
      t.walkFrom cur (pre ++ [x]) =
        pre.length + (match t.lookup (cur ++ pre ++ [x]) with
          | none => 0
          | some _ => 1) := by
  intro pre
  induction pre with
  | nil =>
    intro cur x _
    simp only [List.nil_append, List.append_nil, List.length_nil, Nat.zero_add]
    unfold FsTree.walkFrom
    cases hx : t.lookup (cur ++ [x]) with
    | none => rfl
    | some k => cases k <;> rfl
  | cons y rest ih =>
    intro cur x hdirs
    rw [List.cons_append]
    unfold FsTree.walkFrom
    have h1 : t.lookup (cur ++ [y]) = some NodeKind.dir := by
      have := hdirs 0 (by simp)
      simpa using this
    rw [h1]
    have h2 := ih (cur ++ [y]) x
      (fun j hj => by
        have := hdirs (j + 1) (by simpa using Nat.succ_lt_succ hj)
        rw [← List.append_cons]
        simpa [List.take_cons] using this)
    rw [h2]
    have harr : cur ++ [y] ++ rest ++ [x] = cur ++ (y :: rest) ++ [x] := by
      simp
    rw [harr]
    simp [Nat.add_assoc, Nat.add_comm 1]

theorem treeExists_false_of_not_full (t : FsTree) (q : List String)
    (h : t.walkFrom [] q ≠ q.length) : treeExists t q = .ok false := by
  simp only [treeExists, pyExists, pyInfo, pyInfoRaw, FsTree.oracle,
    List.length_replicate]
  rw [if_pos h]

theorem treeExists_true_of_full (t : FsTree) (q : List String) (k : NodeKind)
    (hfull : t.walkFrom [] q = q.length) (hk : t.lookup q = some k) :
    treeExists t q = .ok true := by
  simp only [treeExists, pyExists, pyInfo, pyInfoRaw, FsTree.oracle,
    List.length_replicate, FsTree.getattrOf]
  rw [if_neg (fun h => h hfull), hk]
  cases k <;> rfl

theorem treeIsdir_true_of_dir (t : FsTree) (q : List String)
    (hfull : t.walkFrom [] q = q.length) (hk : t.lookup q = some NodeKind.dir) :
    treeIsdir t q = .ok true := by
  simp only [treeIsdir, pyIsdir, pyInfo, pyInfoRaw, FsTree.oracle,
    List.length_replicate, FsTree.getattrOf]
  rw [if_neg (fun h => h hfull), hk]
  rfl

theorem treeIsdir_false_of_file (t : FsTree) (q : List String)
    (hfull : t.walkFrom [] q = q.length) (hk : t.lookup q = some NodeKind.file) :
    treeIsdir t q = .ok false := by
  simp only [treeIsdir, pyIsdir, pyInfo, pyInfoRaw, FsTree.oracle,
    List.length_replicate, FsTree.getattrOf]
  rw [if_neg (fun h => h hfull), hk]
  rfl

/-- `_mknod` of `pre ++ [x]` when the whole parent chain exists as
directories and the leaf is absent: the new directory is recorded. -/
theorem mknodDir_concat_ok (t : FsTree) (pre : List String) (x : String)
    (hw : t.walkFrom [] pre = pre.length)
    (hpre : t.lookup pre = some NodeKind.dir)
    (hnew : t.lookup (pre ++ [x]) = none) :
    mknodDir t (pre ++ [x]) = .ok ((pre ++ [x], NodeKind.dir) :: t) := by
  unfold mknodDir
  rw [List.getLast?_concat]
  simp only [List.dropLast_concat]
  rw [hw, List.take_length]
  unfold FsTree.mkdirAt
  rw [hpre, hnew]

/-- `_mknod` of `pre ++ [x]` when the parent chain exists as
directories but the leaf already exists: the engine's exists-error. -/
theorem mknodDir_concat_exists_err (t : FsTree) (pre : List String) (x : String)
    (hw : t.walkFrom [] pre = pre.length)
    (hpre : t.lookup pre = some NodeKind.dir)
    (hex : t.lookup (pre ++ [x]) ≠ none) :
    mknodDir t (pre ++ [x]) = .error (.rpcError [.errCode EEXIST]) := by
  unfold mknodDir
  rw [List.getLast?_concat]
  simp only [List.dropLast_concat]
  rw [hw, List.take_length]
  unfold FsTree.mkdirAt
  rw [hpre]
  cases hl : t.lookup (pre ++ [x]) with
  | none => exact absurd hl hex
  | some k => rfl

theorem dirChain_nil (t : FsTree) : DirChain t [] := by
  intro j hj
  simp at hj

theorem dirChain_lookup (t : FsTree) (pre : List String) (h : DirChain t pre) :
    t.lookup pre = some NodeKind.dir := by
  cases hl : pre.length with
  | zero =>
    rw [List.length_eq_zero.mp hl]
    exact FsTree.lookup_nil t
  | succ n =>
    have h1 := h n (by omega)
    have htake : pre.take (n + 1) = pre := List.take_of_length_le (by omega)
    rw [htake] at h1
    exact h1

theorem concat_take_shift (pre : List String) (x : String) (r : List String) (j : Nat) :
    pre ++ (x :: r).take (j + 1 + 1) = (pre ++ [x]) ++ r.take (j + 1) := by
  rw [List.take_succ_cons, List.append_cons]

/-- Within a directory chain, `DirChain` extends across an inserted
fresh entry. -/
theorem dirChain_insert (t : FsTree) (pre : List String) (x : String)
    (hchain : DirChain t pre) (_hnone : t.lookup (pre ++ [x]) = none) :
    DirChain ((pre ++ [x], NodeKind.dir) :: t) (pre ++ [x]) := by
  intro j hj
  rw [List.length_append, List.length_singleton] at hj
  rcases Nat.lt_or_ge j pre.length with hlt | hge
  · rw [List.take_append_of_le_length (by omega)]
    rw [FsTree.lookup_insert_ne]
    · exact hchain j hlt
    · intro he
      have := congrArg List.length he
      rw [List.length_take, List.length_append, List.length_singleton] at this
      omega
  · have hj' : j = pre.length := by omega
    subst hj'
    rw [List.take_of_length_le (by simp)]
    rw [FsTree.lookup_cons, if_neg (by simp), if_pos rfl]

/-- Skip path of `makedirs` with `exist_ok`: when every chain item is
already a directory, the loop succeeds and leaves the tree
unchanged. -/
theorem makedirsGo_true_all_dirs (t : FsTree) :
    ∀ (ps pre : List String), DirChain t pre →
      (∀ j, j < ps.length → t.lookup (pre ++ ps.take (j + 1)) = some NodeKind.dir) →
      makedirsGo true t (chainFrom pre ps) = .ok t := by
  intro ps
  induction ps with
  | nil => intro pre _ _; rfl
  | cons x r ih =>
    intro pre hchain hall
    have hx : t.lookup (pre ++ [x]) = some NodeKind.dir := by
      have := hall 0 (by simp)
      simpa using this
    have hchain' : DirChain t (pre ++ [x]) := dirChain_concat t pre x hchain hx
    have hfull : t.walkFrom [] (pre ++ [x]) = (pre ++ [x]).length :=
      walkFrom_of_dirChain t _ hchain'
    show makedirsGo true t ((pre ++ [x]) :: chainFrom (pre ++ [x]) r) = .ok t
    simp only [makedirsGo, if_true]
    rw [treeExists_true_of_full t _ _ hfull hx, treeIsdir_true_of_dir t _ hfull hx]
    exact ih (pre ++ [x]) hchain' (fun j hj => by
      have := hall (j + 1) (by simp only [List.length_cons] at hj ⊢; omega)
      rw [concat_take_shift] at this
      exact this)

/-- Success path of `makedirs` with `exist_ok`: a successful run
preserves existing directories and makes a directory of every chain
item. -/
theorem makedirsGo_true_ok_spec :
    ∀ (ps pre : List String) (t t' : FsTree), DirChain t pre →
      makedirsGo true t (chainFrom pre ps) = .ok t' →
      (∀ q, t.lookup q = some NodeKind.dir → t'.lookup q = some NodeKind.dir) ∧
      (∀ j, j < ps.length → t'.lookup (pre ++ ps.take (j + 1)) = some NodeKind.dir) := by
  intro ps
  induction ps with
  | nil =>
    intro pre t t' _ h
    injection h with h
    subst h
    exact ⟨fun q hq => hq, fun j hj => by simp at hj⟩
  | cons x r ih =>
    intro pre t t' hchain h
    rw [show chainFrom pre (x :: r) = (pre ++ [x]) :: chainFrom (pre ++ [x]) r from rfl]
      at h
    simp only [makedirsGo, if_true] at h
    by_cases hfull : t.walkFrom [] (pre ++ [x]) = (pre ++ [x]).length
    · have hsome : t.lookup (pre ++ [x]) ≠ none := by
        have := lookup_some_of_walk_full t (pre ++ [x]) [] (by simp) (by simpa using hfull)
        simpa using this
      cases hl : t.lookup (pre ++ [x]) with
      | none => exact absurd hl hsome
      | some k =>
        cases k with
        | dir =>
          rw [treeExists_true_of_full t _ _ hfull hl, treeIsdir_true_of_dir t _ hfull hl]
            at h
          have hchain2 : DirChain t (pre ++ [x]) := dirChain_concat t pre x hchain hl
          obtain ⟨hmono, hrest⟩ := ih (pre ++ [x]) t t' hchain2 h
          refine ⟨hmono, ?_⟩
          intro j hj
          cases j with
          | zero => simpa using hmono _ hl
          | succ j =>
            rw [concat_take_shift]
            exact hrest j (by simp only [List.length_cons] at hj; omega)
        | file =>
          rw [treeExists_true_of_full t _ _ hfull hl, treeIsdir_false_of_file t _ hfull hl]
            at h
          cases h
    · rw [treeExists_false_of_not_full t _ hfull] at h
      have hnone : t.lookup (pre ++ [x]) = none := by
        cases hl : t.lookup (pre ++ [x]) with
        | none => rfl
        | some k =>
          exfalso
          apply hfull
          have hw := walkFrom_concat_of_dirChain t pre [] x
            (fun j hj => by simpa using hchain j hj)
          simp only [List.nil_append] at hw
          rw [hw, hl]
          simp
      have hmk := mknodDir_concat_ok t pre x (walkFrom_of_dirChain t pre hchain)
        (dirChain_lookup t pre hchain) hnone
      rw [hmk] at h
      have hchain2 : DirChain ((pre ++ [x], NodeKind.dir) :: t) (pre ++ [x]) :=
        dirChain_insert t pre x hchain hnone
      obtain ⟨hmono, hrest⟩ := ih (pre ++ [x]) ((pre ++ [x], NodeKind.dir) :: t) t'
        hchain2 h
      have hitem : FsTree.lookup ((pre ++ [x], NodeKind.dir) :: t) (pre ++ [x]) =
          some NodeKind.dir := by
        rw [FsTree.lookup_cons, if_neg (by simp), if_pos rfl]
      refine ⟨?_, ?_⟩
      · intro q hq
        apply hmono
        rw [FsTree.lookup_insert_ne]
        · exact hq
        · intro he
          rw [he, hnone] at hq
          cases hq
      · intro j hj
        cases j with
        | zero => simpa using hmono _ hitem
        | succ j =>
          rw [concat_take_shift]
          exact hrest j (by simp only [List.length_cons] at hj; omega)

theorem append_take_ne (pre : List String) (x : String) (r : List String) (j : Nat)
    (hj : j + 1 ≤ r.length) : (pre ++ [x]) ++ r.take (j + 1) ≠ pre ++ [x] := by
  intro he
  have hlen := congrArg List.length he
  rw [List.length_append, List.length_take] at hlen
  omega

/-- `NotADirectory` path of `makedirs` with `exist_ok`: when the first
non-directory chain item is a file (all earlier items directories),
the loop fails with the exists-and-not-a-directory error. -/
theorem makedirsGo_true_file_err (t : FsTree) :
    ∀ (ps pre : List String), DirChain t pre →
      ∀ i, i < ps.length →
        (∀ j, j < i → t.lookup (pre ++ ps.take (j + 1)) = some NodeKind.dir) →
        t.lookup (pre ++ ps.take (i + 1)) = some NodeKind.file →
        makedirsGo true t (chainFrom pre ps) =
          .error (.p9Error
            (joinSlash (pre ++ ps.take (i + 1)) ++ " exists and not a directory")) := by
  intro ps
  induction ps with
  | nil => intro pre _ i hi; simp at hi
  | cons x r ih =>
    intro pre hchain i hi hdirs hfile
    show makedirsGo true t ((pre ++ [x]) :: chainFrom (pre ++ [x]) r) = _
    simp only [makedirsGo, if_true]
    cases i with
    | zero =>
      have hx : t.lookup (pre ++ [x]) = some NodeKind.file := by
        simpa using hfile
      have hfull : t.walkFrom [] (pre ++ [x]) = (pre ++ [x]).length := by
        have hw := walkFrom_concat_of_dirChain t pre [] x
          (fun j hj => by simpa using hchain j hj)
        simp only [List.nil_append] at hw
        rw [hw, hx]
        simp
      rw [treeExists_true_of_full t _ _ hfull hx, treeIsdir_false_of_file t _ hfull hx]
      rfl
    | succ i =>
      have hx : t.lookup (pre ++ [x]) = some NodeKind.dir := by
        have := hdirs 0 (by omega)
        simpa using this
      have hchain2 : DirChain t (pre ++ [x]) := dirChain_concat t pre x hchain hx
      have hfull := walkFrom_of_dirChain t _ hchain2
      rw [treeExists_true_of_full t _ _ hfull hx, treeIsdir_true_of_dir t _ hfull hx]
      have hrec := ih (pre ++ [x]) hchain2 i
        (by simp only [List.length_cons] at hi; omega)
        (fun j hj => by
          have h2 := hdirs (j + 1) (by omega)
          rw [concat_take_shift] at h2
          exact h2)
        (by rw [← concat_take_shift]; exact hfile)
      rw [hrec, concat_take_shift]

/-- `exist_ok = False` failure path: every ancestor is created
unconditionally, so the first chain item that already exists (all
earlier ones absent) draws the engine's exists-error. -/
theorem makedirsGo_false_exists_err :
    ∀ (ps pre : List String) (t : FsTree), DirChain t pre →
      ∀ i, i < ps.length →
        (∀ j, j < i → t.lookup (pre ++ ps.take (j + 1)) = none) →
        t.lookup (pre ++ ps.take (i + 1)) ≠ none →
        makedirsGo false t (chainFrom pre ps) =
          .error (.rpcError [.errCode EEXIST]) := by
  intro ps
  induction ps with
  | nil => intro pre t _ i hi; simp at hi
  | cons x r ih =>
    intro pre t hchain i hi hnones hex
    show makedirsGo false t ((pre ++ [x]) :: chainFrom (pre ++ [x]) r) = _
    simp only [makedirsGo, Bool.false_eq_true, if_false]
    cases i with
    | zero =>
      have hx : t.lookup (pre ++ [x]) ≠ none := by
        simpa using hex
      rw [mknodDir_concat_exists_err t pre x (walkFrom_of_dirChain t pre hchain)
        (dirChain_lookup t pre hchain) hx]
    | succ i =>
      have hilen : i < r.length := by
        simp only [List.length_cons] at hi
        omega
      have h0 : t.lookup (pre ++ [x]) = none := by
        have := hnones 0 (by omega)
        simpa using this
      rw [mknodDir_concat_ok t pre x (walkFrom_of_dirChain t pre hchain)
        (dirChain_lookup t pre hchain) h0]
      exact ih (pre ++ [x]) ((pre ++ [x], NodeKind.dir) :: t)
        (dirChain_insert t pre x hchain h0) i hilen
        (fun j hj => by
          have hnn := hnones (j + 1) (by omega)
          rw [concat_take_shift] at hnn
          rw [FsTree.lookup_insert_ne _ _ _ _ (append_take_ne pre x r j (by omega))]
          exact hnn)
        (by
          have hre := hex
          rw [concat_take_shift] at hre
          rw [FsTree.lookup_insert_ne _ _ _ _ (append_take_ne pre x r i (by omega))]
          exact hre)

/-- `exist_ok = False` success path: when no chain item exists yet,
every ancestor is created and the loop succeeds. -/
theorem makedirsGo_false_ok :
    ∀ (ps pre : List String) (t : FsTree), DirChain t pre →
      (∀ j, j < ps.length → t.lookup (pre ++ ps.take (j + 1)) = none) →
      ∃ t', makedirsGo false t (chainFrom pre ps) = .ok t' ∧
        (∀ q, t.lookup q = some NodeKind.dir → t'.lookup q = some NodeKind.dir) ∧
        (∀ j, j < ps.length →
          t'.lookup (pre ++ ps.take (j + 1)) = some NodeKind.dir) := by
  intro ps
  induction ps with
  | nil =>
    intro pre t _ _
    exact ⟨t, rfl, fun q hq => hq, fun j hj => by simp at hj⟩
  | cons x r ih =>
    intro pre t hchain hnones
    have h0 : t.lookup (pre ++ [x]) = none := by
      have := hnones 0 (by simp)
      simpa using this
    have hmk := mknodDir_concat_ok t pre x (walkFrom_of_dirChain t pre hchain)
      (dirChain_lookup t pre hchain) h0
    obtain ⟨t', hrun, hmono, hdirs⟩ := ih (pre ++ [x]) ((pre ++ [x], NodeKind.dir) :: t)
      (dirChain_insert t pre x hchain h0)
      (fun j hj => by
        have hnn := hnones (j + 1) (by simp only [List.length_cons]; omega)
        rw [concat_take_shift] at hnn
        rw [FsTree.lookup_insert_ne _ _ _ _ (append_take_ne pre x r j (by omega))]
        exact hnn)
    have hitem : FsTree.lookup ((pre ++ [x], NodeKind.dir) :: t) (pre ++ [x]) =
        some NodeKind.dir := by
      rw [FsTree.lookup_cons, if_neg (by simp), if_pos rfl]
    refine ⟨t', ?_, ?_, ?_⟩
    · show makedirsGo false t ((pre ++ [x]) :: chainFrom (pre ++ [x]) r) = .ok t'
      simp only [makedirsGo, Bool.false_eq_true, if_false]
      rw [hmk]
      exact hrun
    · intro q hq
      apply hmono
      rw [FsTree.lookup_insert_ne]
      · exact hq
      · intro he
        rw [he, h0] at hq
        cases hq
    · intro j hj
      cases j with
      | zero => simpa using hmono _ hitem
      | succ j =>
        rw [concat_take_shift]
        exact hdirs j (by simp only [List.length_cons] at hj; omega)

/-- C7: the claim as stated is false on the code.  On a server whose
tree already has the directory `a`, `makedirs("a/b", exist_ok=False)`
fails with the engine's exists-error even though `a` is only an
implicit parent of the target `a/b` (which does not exist): the loop
calls `mkdir` on every ancestor unconditionally when `exist_ok` is
unset. -/
theorem C7_counterexample :
    FsTree.lookup [(["a"], NodeKind.dir)] ["a"] = some NodeKind.dir ∧
    FsTree.lookup [(["a"], NodeKind.dir)] ["a", "b"] = none ∧
    makedirs [(["a"], NodeKind.dir)] ["a", "b"] false =
      .error (.rpcError [.errCode EEXIST]) := by
  refine ⟨?_, ?_, ?_⟩
  · rfl
  · rfl
  · rw [makedirs, ancestorChain_eq]
    apply makedirsGo_false_exists_err ["a", "b"] [] [(["a"], NodeKind.dir)]
      (dirChain_nil _) 0 (by simp) (fun j hj => by omega)
    intro h
    rw [show ([] : List String) ++ ["a", "b"].take (0 + 1) = ["a"] from rfl] at h
    cases h

/-- C7 (amended): `makedirs` walks the ordered ancestor chain
(excluding the current-directory marker).  With `exist_ok` set: the
first chain item that exists as a file fails with the
exists-and-not-a-directory error, existing directories are skipped,
and a second identical call succeeds without error and without change.
With `exist_ok` unset, every ancestor is created unconditionally: the
call fails with the engine's exists-error as soon as any chain item —
the target or an implicit parent — already exists, and succeeds
(creating every ancestor) when none exists. -/
theorem C7_makedirs_amended (t : FsTree) (parts : List String) :
    (∀ i, i < parts.length →
      (∀ j, j < i → t.lookup (parts.take (j + 1)) = some NodeKind.dir) →
      t.lookup (parts.take (i + 1)) = some NodeKind.file →
      makedirs t parts true =
        .error (.p9Error
          (joinSlash (parts.take (i + 1)) ++ " exists and not a directory"))) ∧
    (∀ t', makedirs t parts true = .ok t' → makedirs t' parts true = .ok t') ∧
    (∀ i, i < parts.length →
      (∀ j, j < i → t.lookup (parts.take (j + 1)) = none) →
      t.lookup (parts.take (i + 1)) ≠ none →
      makedirs t parts false = .error (.rpcError [.errCode EEXIST])) ∧
    ((∀ i, i < parts.length → t.lookup (parts.take (i + 1)) = none) →
      ∃ t', makedirs t parts false = .ok t' ∧
        ∀ i, i < parts.length →
          t'.lookup (parts.take (i + 1)) = some NodeKind.dir) := by
  refine ⟨?_, ?_, ?_, ?_⟩
  · intro i hi hdirs hfile
    rw [makedirs, ancestorChain_eq]
    have h := makedirsGo_true_file_err t parts [] (dirChain_nil t) i hi
      (fun j hj => by simpa using hdirs j hj) (by simpa using hfile)
    rw [h]
    simp
  · intro t' h
    rw [makedirs, ancestorChain_eq] at h
    obtain ⟨hmono, hdirs⟩ :=
      makedirsGo_true_ok_spec parts [] t t' (dirChain_nil t) h
    rw [makedirs, ancestorChain_eq]
    exact makedirsGo_true_all_dirs t' parts [] (dirChain_nil t')
      (fun j hj => by simpa using hdirs j hj)
  · intro i hi hnones hex
    rw [makedirs, ancestorChain_eq]
    exact makedirsGo_false_exists_err parts [] t (dirChain_nil t) i hi
      (fun j hj => by simpa using hnones j hj) (by simpa using hex)
  · intro hnones
    obtain ⟨t', hrun, _, hdirs⟩ := makedirsGo_false_ok parts [] t (dirChain_nil t)
      (fun j hj => by simpa using hnones j hj)
    refine ⟨t', ?_, ?_⟩
    · rw [makedirs, ancestorChain_eq]
      exact hrun
    · intro i hi
      have := hdirs i hi
      simpa using this

/-- Witness for `C7_makedirs_amended`: on the empty tree,
`makedirs ["a", "b"]` with `exist_ok` unset succeeds and creates both
directories. -/
theorem C7_makedirs_amended_witness :
    (∀ i, i < (["a", "b"] : List String).length →
      FsTree.lookup [] (["a", "b"].take (i + 1)) = none) ∧
    (∃ t', makedirs [] ["a", "b"] false = .ok t' ∧
      ∀ i, i < (["a", "b"] : List String).length →
        t'.lookup (["a", "b"].take (i + 1)) = some NodeKind.dir) := by
  have hnones : ∀ i, i < (["a", "b"] : List String).length →
      FsTree.lookup [] (["a", "b"].take (i + 1)) = none := by
    intro i hi
    simp only [List.length_cons, List.length_singleton] at hi
    match i, hi with
    | 0, _ => rfl
    | 1, _ => rfl
  exact ⟨hnones, (C7_makedirs_amended [] ["a", "b"]).2.2.2 hnones⟩

/-- The record list of the two-record 9P2000.L getattr reply used to
probe the single-record check. -/
def c9records : List GetattrRec :=
  [⟨1, 11, 12, 13, 14⟩, ⟨2, 21, 22, 23, 24⟩]

/-- A client oracle whose getattr reply decodes to two records while
the walk fully resolves the one-component path. -/
def c9oracle : ClientOracle :=
  { walk := fun _ => .ok ⟨[⟨QTDIR⟩]⟩
    getattr := .ok ⟨⟨QTDIR⟩, c9records⟩
    stat := .ok ⟨[]⟩
    msize := 8192 }

/-- C9: the claim as stated is false on the code for the 9P2000.L
variant.  A getattr reply that decodes to two records where exactly
one is expected does not make `_info` fail loudly: `_info_from_rgetattr`
silently truncates to `response.stat[0]` and the query returns the
first record's info. -/
theorem C9_counterexample :
    c9records.length = 2 ∧
    c9oracle.getattr = .ok ⟨⟨QTDIR⟩, c9records⟩ ∧
    pyInfoRaw modelFns c9oracle .v9P2000L ⟨["x"], false⟩ =
      .ok { name := "x/", type := NodeType.directory, mode := 1, size := 11,
            atime := 12, mtime := 13, ctime := some 14 } := by
  refine ⟨rfl, rfl, ?_⟩
  rfl

/-- C9 (amended): the exactly-one-record check guards only the
Legacy/Unix-extended stat path, where a reply with `≠ 1` records fails
loudly with the shape `P9Error`; the 9P2000.L getattr path performs no
such check — zero records raise a bare `IndexError`, and extra records
are silently ignored (the result depends only on the first record). -/
theorem C9_record_count (fns : EngineFns) (cl : ClientOracle) (p : PyPath)
    (resp : Rwalk) (hw : cl.walk p.parts = .ok resp)
    (hc : resp.wqid.length = p.parts.length) :
    (∀ ver r, ver ≠ .v9P2000L → cl.stat = .ok r → r.stat.length ≠ 1 →
      pyInfoRaw fns cl ver p =
        .error (.p9Error
          ("stat returned " ++ toString r.stat.length ++ " items instead of 1"))) ∧
    (∀ g, cl.getattr = .ok g →
      (g.stat = [] → pyInfoRaw fns cl .v9P2000L p = .error .indexError) ∧
      (∀ rec rest, g.stat = rec :: rest →
        pyInfoRaw fns cl .v9P2000L p = infoFromRgetattr fns p.str ⟨g.qid, [rec]⟩)) := by
  constructor
  · intro ver r hver hs hlen
    have hleneq : (infoFromRstat fns p.parentStr r).length = r.stat.length := by
      unfold infoFromRstat
      exact List.length_map _ _
    have hcond : (infoFromRstat fns p.parentStr r).length ≠ 1 := by
      rw [hleneq]
      exact hlen
    cases ver with
    | v9P2000L => exact absurd rfl hver
    | v9P2000 =>
      unfold pyInfoRaw
      simp only [hw]
      rw [if_neg (fun h => h hc)]
      simp only [hs]
      rw [if_pos hcond, hleneq]
    | v9P2000u =>
      unfold pyInfoRaw
      simp only [hw]
      rw [if_neg (fun h => h hc)]
      simp only [hs]
      rw [if_pos hcond, hleneq]
  · intro g hg
    constructor
    · intro hstat
      unfold pyInfoRaw
      simp only [hw]
      rw [if_neg (fun h => h hc)]
      simp only [hg]
      unfold infoFromRgetattr
      rw [hstat]
    · intro rec rest hstat
      unfold pyInfoRaw
      simp only [hw]
      rw [if_neg (fun h => h hc)]
      simp only [hg]
      unfold infoFromRgetattr
      rw [hstat]

/-- Witness for `C9_record_count`: against the two-record oracle, the
9P2000.L query equals the translation of the first record alone. -/
theorem C9_record_count_witness :
    c9oracle.walk ["x"] = .ok ⟨[⟨QTDIR⟩]⟩ ∧
    pyInfoRaw modelFns c9oracle .v9P2000L ⟨["x"], false⟩ =
      infoFromRgetattr modelFns (PyPath.str ⟨["x"], false⟩)
        ⟨⟨QTDIR⟩, [⟨1, 11, 12, 13, 14⟩]⟩ := by
  refine ⟨rfl, ?_⟩
  exact ((C9_record_count modelFns c9oracle ⟨["x"], false⟩ ⟨[⟨QTDIR⟩]⟩ rfl rfl).2
    ⟨⟨QTDIR⟩, c9records⟩ rfl).2 ⟨1, 11, 12, 13, 14⟩ [⟨2, 21, 22, 23, 24⟩] rfl

/-- C4: evidence of the upload off-by-one.  The drain loop of
`_upload_chunk` runs `while offset < size - 1`, so a 1-byte pending
buffer is never written at all, and a buffer one byte longer than the
transfer unit (here 5 bytes against a 4-byte unit) loses its final
byte — with or without the `final` flag; a buffer of exactly one unit
is drained in full.  Reading the file back then cannot return the
written bytes `B`, contradicting the round-trip claim. -/
theorem C4_upload_chunk_drops_final_byte :
    ((uploadChunkWrites true [1] 4 0).map Prod.snd).flatten = [] ∧
    ((uploadChunkWrites false [1, 2, 3, 4, 5] 4 0).map Prod.snd).flatten = [1, 2, 3, 4] ∧
    ((uploadChunkWrites true [1, 2, 3, 4] 4 0).map Prod.snd).flatten = [1, 2, 3, 4] := by
  decide

/-- Witness for `C10_open_fid`: a failing walk on the pool over 1..2
releases fid 1 back (free list becomes `[2, 1]`, a permutation of
`[1, 2]`) and the error surfaces unchanged. -/
theorem C10_open_fid_witness :
    (FidCache.init 1 2).acquire =
      .ok (⟨1, IOUNIT⟩, { start := 1, limit := 2, iounit := IOUNIT, fids := [2] }) ∧
    openFid
        { walk := fun _ => .error (.other 7), lopen := fun _ => .ok ⟨0⟩,
          plainOpen := fun _ => .ok ⟨0⟩, open2plan := fun m => m, msize := 100 }
        .v9P2000L (FidCache.init 1 2) ["x"] 0 =
      (.error (.other 7),
        { start := 1, limit := 2, iounit := IOUNIT, fids := [2, 1] }) := by
  refine ⟨rfl, ?_⟩
  have h := (C10_open_fid
    { walk := fun _ => .error (.other 7), lopen := fun _ => .ok ⟨0⟩,
      plainOpen := fun _ => .ok ⟨0⟩, open2plan := fun m => m, msize := 100 }
    .v9P2000L (FidCache.init 1 2) ["x"] 0 ⟨1, IOUNIT⟩
    { start := 1, limit := 2, iounit := IOUNIT, fids := [2] } rfl).1 (.other 7) rfl
  exact h.1

end P9fs
